import Mathlib

/-!
Verification of the GLV scalar-decomposition core of
`src/plonk/circuit/curve_new/sage_gen_script.py`: the extended-Euclidean
lattice-basis construction (lines 166-200), the derived bit-length bound
`limit` (lines 213-221) and `get_endomorphism_scalar_decomposition`
(lines 224-235).

The script is executed by Sage (Python 2): integer literals are Sage
`Integer`s, `v/u` on integers is an exact rational, `int(v/u)` truncates
toward zero, `round` on an exact rational rounds to the nearest integer
with ties away from zero, `Integer.nbits()` is the bit length of the
absolute value (GMP `mpz_sizeinbase`, which reports 1 for zero), and
`Integer.isqrt()` is the floor integer square root.  A division by zero
raises `ZeroDivisionError`; a failed `assert` raises `AssertionError`.
Both are modelled below as explicit failure results.
-/

namespace GlvScript

/-- Fuel-based bit length: `bitlenAux fuel n` is the number of binary digits
of `n` as long as `n ≤ fuel`.  Written with structural recursion on the fuel
so that the kernel can evaluate it on concrete inputs. -/
def bitlenAux : Nat → Nat → Nat
  | 0, _ => 0
  | fuel + 1, n => if n = 0 then 0 else bitlenAux fuel (n / 2) + 1

/-- Number of binary digits of `n` (`⌊log2 n⌋ + 1` for `n ≥ 1`, and `0` for `0`). -/
def bitlen (n : Nat) : Nat := bitlenAux n n

/-- Sage `Integer.nbits()`: bit length of the absolute value; GMP
`mpz_sizeinbase` reports `1` for zero. -/
def nbits (x : Int) : Nat := max (bitlen x.natAbs) 1

/-- Fuel-based linear search for the floor square root of `n`:
increase `acc` while `(acc+1)^2 ≤ n`. -/
def isqrtAux (n : Nat) : Nat → Nat → Nat
  | 0, acc => acc
  | fuel + 1, acc => if (acc + 1) * (acc + 1) ≤ n then isqrtAux n fuel (acc + 1) else acc

/-- Floor integer square root on `Nat` (Sage `Integer.isqrt`). -/
def isqrtNat (n : Nat) : Nat := isqrtAux n n 0

/-- `bound = params.Fr.isqrt()` (line 166); the script only ever applies it
to the nonnegative `Fr`. -/
def isqrt (n : Int) : Int := (isqrtNat n.toNat : Nat)

/-- The mutable state of the basis-reduction `while` loop (lines 167-180):
`u`, `v` are the running remainders and `(x1, y1)`, `(x2, y2)` the tracked
Bezout coefficient pairs. -/
structure EuclidState where
  u : Int
  v : Int
  x1 : Int
  y1 : Int
  x2 : Int
  y2 : Int
deriving DecidableEq, Repr

/-- Initialization at lines 167-169: `u = Fr; v = lambda; x1 = 1; y1 = 0;
x2 = 0; y2 = 1`. -/
def initState (Fr lam : Int) : EuclidState := ⟨Fr, lam, 1, 0, 0, 1⟩

/-- One iteration of the loop body (lines 171-180): Euclidean division
`q = int(v/u); r = v - q*u` (truncating division, exact on the nonnegative
values the loop reaches), coefficient updates `x = x2 - q*x1;
y = y2 - q*y1` and the rotation `v←u, u←r, x2←x1, x1←x, y2←y1, y1←y`.
The new `u` is the fresh remainder `r` tested against `bound`. -/
def euclidStep (s : EuclidState) : EuclidState :=
  let q := s.v.tdiv s.u
  let r := s.v - q * s.u
  let x := s.x2 - q * s.x1
  let y := s.y2 - q * s.y1
  ⟨r, s.u, x, y, s.x1, s.y1⟩

/-- `n` iterations of the loop body from state `s`. -/
def stepN : Nat → EuclidState → EuclidState
  | 0, s => s
  | n + 1, s => euclidStep (stepN n s)

/-- A produced lattice basis `v1 = (a1, b1)`, `v2 = (a2, b2)`. -/
structure Basis where
  a1 : Int
  b1 : Int
  a2 : Int
  b2 : Int
deriving DecidableEq, Repr

/-- Result of the basis construction: a basis, a `ZeroDivisionError`, or
exhaustion of the fuel that replaces the unbounded `while True`. -/
inductive BasisResult where
  | ok (b : Basis)
  | divByZero
  | outOfFuel
deriving DecidableEq, Repr

/-- The `if r < bound` break branch (lines 182-200), entered with the
post-rotation state `s` (so `r = s.u`): first candidate `a1 = r`,
`b1 = -y1`; alternate candidate `r_l = x2*Fr + y2*lambda`, `t_l = y2`;
one further Euclidean step `q = int(v/u); r_l2 = v - q*u;
x_l2 = x2 - q*x1; y_l2 = y2 - q*y1` (raising `ZeroDivisionError` when
`u = 0`); then the squared-norm tie-break at lines 192-199. -/
def tieBreak (Fr lam : Int) (s : EuclidState) : BasisResult :=
  let a1 := s.u
  let b1 := -s.y1
  let r_l := s.x2 * Fr + s.y2 * lam
  let t_l := s.y2
  if s.u = 0 then .divByZero
  else
    let q := s.v.tdiv s.u
    let r_l2 := s.v - q * s.u
    let x_l2 := s.x2 - q * s.x1
    let y_l2 := s.y2 - q * s.y1
    if r_l ^ 2 + t_l ^ 2 ≤ r_l2 ^ 2 + y_l2 ^ 2 then
      .ok ⟨r_l, -t_l, a1, b1⟩
    else
      .ok ⟨a1, b1, r_l2, -y_l2⟩

/-- The `while True` loop (lines 170-200) with explicit fuel: run
`euclidStep`, break into `tieBreak` at the first remainder strictly below
`bound`.  The `ZeroDivisionError` of `q = int(v/u)` with `u = 0` is the
`divByZero` result. -/
def basisLoop (Fr lam bound : Int) : Nat → EuclidState → BasisResult
  | 0, _ => .outOfFuel
  | fuel + 1, s =>
    if s.u = 0 then .divByZero
    else
      let s' := euclidStep s
      if s'.u < bound then tieBreak Fr lam s'
      else basisLoop Fr lam bound fuel s'

/-- Basis construction from `(Fr, lambda)` (lines 166-200).  The fuel
`Fr.natAbs + 2` is sufficient for every input the script can reach: after
the first iteration `u < Fr` and `u` strictly decreases while the loop
continues. -/
def build_basis (Fr lam : Int) : BasisResult :=
  basisLoop Fr lam (isqrt Fr) (Fr.natAbs + 2) (initState Fr lam)

/-- `v_1_norm_squared = a1^2 + b1^2` (line 217). -/
def v1NormSq (b : Basis) : Int := b.a1 ^ 2 + b.b1 ^ 2

/-- `v_2_norm_squared = a2^2 + b2^2` (line 218). -/
def v2NormSq (b : Basis) : Int := b.a2 ^ 2 + b.b2 ^ 2

/-- `max_norm_squared = max(v_1_norm_squared, v_2_norm_squared)` (line 219). -/
def maxNormSq (b : Basis) : Int := max (v1NormSq b) (v2NormSq b)

/-- `limit = int((max_norm_squared.nbits() + 1) / 2)` (line 220). -/
def limitOf (b : Basis) : Nat := (nbits (maxNormSq b) + 1) / 2

/-- Sage `round` applied to the exact rational `n / d` with `d > 0`:
round to the nearest integer, ties away from zero, implemented with
arbitrary-precision integer division. -/
def roundAway (n d : Int) : Int :=
  if 0 ≤ n then (2 * n + d) / (2 * d) else -((2 * (-n) + d) / (2 * d))

/-- `c1 = round(b2 * k / params.Fr)` (line 225). -/
def c1Of (Fr : Int) (b : Basis) (k : Int) : Int := roundAway (b.b2 * k) Fr

/-- `c2 = round(-b1 * k / params.Fr)` (line 226). -/
def c2Of (Fr : Int) (b : Basis) (k : Int) : Int := roundAway (-b.b1 * k) Fr

/-- `k1 = k - c1 * a1 - c2 * a2` (line 227), before the sign normalization. -/
def k1Raw (Fr : Int) (b : Basis) (k : Int) : Int :=
  k - c1Of Fr b k * b.a1 - c2Of Fr b k * b.a2

/-- `k2 = -c1 * b1 - c2 * b2` (line 228), before the sign normalization. -/
def k2Raw (Fr : Int) (b : Basis) (k : Int) : Int :=
  -(c1Of Fr b k) * b.b1 - c2Of Fr b k * b.b2

/-- The conditional replacement at lines 229-232: `if x.nbits() > limit:
x = Fr - x`. -/
def flipIfWide (Fr : Int) (limit : Nat) (x : Int) : Int :=
  if limit < nbits x then Fr - x else x

/-- `get_endomorphism_scalar_decomposition` (lines 224-235).  The two
`assert` statements at lines 233-234 are modelled by returning `none`
(an `AssertionError`) when they fail. -/
def get_endomorphism_scalar_decomposition (Fr : Int) (b : Basis) (k : Int) :
    Option (Int × Int) :=
  let limit := limitOf b
  let k1 := flipIfWide Fr limit (k1Raw Fr b k)
  let k2 := flipIfWide Fr limit (k2Raw Fr b k)
  if nbits k1 ≤ limit ∧ nbits k2 ≤ limit then some (k1, k2) else none

/-- Steps 3-5 of section 4.1 of the spec, written from the spec text: at
the stopping state define the first candidate `v1 = (a1, b1) = (r, -y1)`;
form the alternate candidate from the pre-stop state,
`r_l = x2*Fr + y2*lambda` with companion `t_l = y2`; continue the
recurrence one more iteration to obtain `v2' = (r_l2, -y_l2)`; compare
squared norms `r_l^2 + t_l^2` versus `r_l2^2 + y_l2^2`; if the first is
less than or equal, set `v2 = v1` and overwrite `v1 = (r_l, -t_l)`,
otherwise set `v2 = (r_l2, -y_l2)`. -/
def specSelect (Fr lam : Int) (s : EuclidState) : Option Basis :=
  let v1 : Int × Int := (s.u, -s.y1)
  let r_l := s.x2 * Fr + s.y2 * lam
  let t_l := s.y2
  if s.u = 0 then none
  else
    let q := s.v.tdiv s.u
    let r_l2 := s.v - q * s.u
    let y_l2 := s.y2 - q * s.y1
    if r_l ^ 2 + t_l ^ 2 ≤ r_l2 ^ 2 + y_l2 ^ 2 then
      some ⟨r_l, -t_l, v1.1, v1.2⟩
    else
      some ⟨v1.1, v1.2, r_l2, -y_l2⟩

/-- Ceiling of the base-2 logarithm: the smallest `L` with `m ≤ 2 ^ L`,
computed as the bit length of `m - 1`. -/
def ceilLog2 (m : Nat) : Nat := bitlen (m - 1)

/-- Floor of the base-2 logarithm of `m ≥ 1`: `bitlen m - 1`. -/
def floorLog2 (m : Nat) : Nat := bitlen m - 1

/-- The limit formula stated by the spec:
`limit = ceil((⌈log2(max_norm_squared)⌉ + 1) / 2)`. -/
def specLimitFormula (m : Nat) : Nat := (ceilLog2 m + 1 + 1) / 2

/-- The amended limit formula: the inner ceiling replaced by a floor,
`limit = ceil((⌊log2(max_norm_squared)⌋ + 1) / 2)`. -/
def amendedLimitFormula (m : Nat) : Nat := (floorLog2 m + 1 + 1) / 2

/-! ### Characterization of the auxiliary arithmetic functions -/

theorem bitlenAux_lt (fuel n : Nat) (h : n ≤ fuel) : n < 2 ^ bitlenAux fuel n := by
  induction fuel generalizing n with
  | zero => simpa [bitlenAux] using h
  | succ fuel ih =>
    rw [bitlenAux]
    split
    · omega
    · have hrec := ih (n / 2) (by omega)
      rw [pow_succ]
      omega

theorem bitlenAux_le (fuel n k : Nat) (h : n ≤ fuel) (hk : n < 2 ^ k) :
    bitlenAux fuel n ≤ k := by
  induction fuel generalizing n k with
  | zero => simp [bitlenAux]
  | succ fuel ih =>
    rw [bitlenAux]
    split
    · omega
    · have hn : n ≠ 0 := by assumption
      have hk0 : k ≠ 0 := by
        rcases Nat.eq_zero_or_pos k with h0 | h0
        · subst h0; simp at hk; omega
        · omega
      obtain ⟨k', rfl⟩ : ∃ k', k = k' + 1 := ⟨k - 1, by omega⟩
      have : n / 2 < 2 ^ k' := by
        rw [pow_succ] at hk; omega
      have := ih (n / 2) k' (by omega) this
      omega

theorem lt_two_pow_bitlen (n : Nat) : n < 2 ^ bitlen n :=
  bitlenAux_lt n n le_rfl

theorem bitlen_le (n k : Nat) : bitlen n ≤ k ↔ n < 2 ^ k := by
  constructor
  · intro h
    exact lt_of_lt_of_le (lt_two_pow_bitlen n) (Nat.pow_le_pow_right (by norm_num) h)
  · exact bitlenAux_le n n k le_rfl

theorem one_le_bitlen (n : Nat) (h : 1 ≤ n) : 1 ≤ bitlen n := by
  by_contra hc
  have : bitlen n ≤ 0 := by omega
  rw [bitlen_le] at this
  omega

theorem nbits_le (x : Int) (k : Nat) (hk : 1 ≤ k) : nbits x ≤ k ↔ x.natAbs < 2 ^ k := by
  unfold nbits
  rw [max_le_iff, bitlen_le]
  omega

theorem lt_two_pow_nbits (x : Int) : x.natAbs < 2 ^ nbits x := by
  refine lt_of_lt_of_le (lt_two_pow_bitlen x.natAbs) (Nat.pow_le_pow_right (by norm_num) ?_)
  unfold nbits
  omega

theorem isqrtAux_sound (n : Nat) (fuel acc : Nat) (hacc : acc * acc ≤ n)
    (hfuel : n < (acc + fuel + 1) * (acc + fuel + 1)) :
    isqrtAux n fuel acc * isqrtAux n fuel acc ≤ n ∧
      n < (isqrtAux n fuel acc + 1) * (isqrtAux n fuel acc + 1) := by
  induction fuel generalizing acc with
  | zero =>
    rw [isqrtAux]
    exact ⟨hacc, by simpa using hfuel⟩
  | succ fuel ih =>
    rw [isqrtAux]
    split
    · refine ih (acc + 1) (by assumption) ?_
      have e : acc + 1 + fuel + 1 = acc + (fuel + 1) + 1 := by omega
      rw [e]
      exact hfuel
    · next h => exact ⟨hacc, by omega⟩

/-- `isqrtNat` is the floor integer square root. -/
theorem isqrtNat_sound (n : Nat) :
    isqrtNat n * isqrtNat n ≤ n ∧ n < (isqrtNat n + 1) * (isqrtNat n + 1) :=
  isqrtAux_sound n n 0 (by omega) (by nlinarith)

theorem one_le_isqrtNat (n : Nat) (h : 1 ≤ n) : 1 ≤ isqrtNat n := by
  have h2 := (isqrtNat_sound n).2
  by_contra hc
  have hz : isqrtNat n = 0 := by omega
  rw [hz] at h2
  omega

theorem one_le_isqrt (n : Int) (h : 1 ≤ n) : 1 ≤ isqrt n := by
  unfold isqrt
  have : 1 ≤ isqrtNat n.toNat := one_le_isqrtNat _ (by omega)
  exact_mod_cast this

/-! ### The Bezout invariant of the reduction loop -/

theorem euclidStep_bez (Fr lam : Int) (s : EuclidState)
    (h1 : s.u = s.x1 * Fr + s.y1 * lam) (h2 : s.v = s.x2 * Fr + s.y2 * lam) :
    (euclidStep s).u = (euclidStep s).x1 * Fr + (euclidStep s).y1 * lam ∧
      (euclidStep s).v = (euclidStep s).x2 * Fr + (euclidStep s).y2 * lam := by
  unfold euclidStep
  constructor
  · simp only
    rw [h1, h2]; ring
  · simpa using h1

theorem euclidStep_det (s : EuclidState) :
    (euclidStep s).x1 * (euclidStep s).y2 - (euclidStep s).x2 * (euclidStep s).y1 =
      -(s.x1 * s.y2 - s.x2 * s.y1) := by
  unfold euclidStep
  simp only
  ring

/-- The remainder produced by one loop iteration on the nonnegative states
the loop reaches: the new `u` is `v mod u`, the new `v` is the old `u`. -/
theorem euclidStep_remainder (s : EuclidState) (hu : 0 < s.u) (hv : 0 ≤ s.v) :
    (euclidStep s).u = s.v % s.u ∧ (euclidStep s).v = s.u := by
  unfold euclidStep
  refine ⟨?_, rfl⟩
  show s.v - s.v.tdiv s.u * s.u = s.v % s.u
  rw [Int.tdiv_eq_ediv hv (le_of_lt hu), Int.emod_def]
  ring

/-- A basis produced by the break branch from a state satisfying the Bezout
invariant lies in the target sublattice, and its determinant is `±Fr`. -/
theorem tieBreak_ok (Fr lam : Int) (s : EuclidState) (b : Basis)
    (h1 : s.u = s.x1 * Fr + s.y1 * lam) (h2 : s.v = s.x2 * Fr + s.y2 * lam)
    (hdet : s.x1 * s.y2 - s.x2 * s.y1 = 1 ∨ s.x1 * s.y2 - s.x2 * s.y1 = -1)
    (hok : tieBreak Fr lam s = .ok b) :
    ((b.a1 + b.b1 * lam) % Fr = 0 ∧ (b.a2 + b.b2 * lam) % Fr = 0) ∧
      (b.a1 * b.b2 - b.a2 * b.b1 = Fr ∨ b.a1 * b.b2 - b.a2 * b.b1 = -Fr) := by
  simp only [tieBreak] at hok
  by_cases hz : s.u = 0
  · rw [if_pos hz] at hok
    cases hok
  · rw [if_neg hz] at hok
    by_cases hcmp : (s.x2 * Fr + s.y2 * lam) ^ 2 + s.y2 ^ 2 ≤
        (s.v - s.v.tdiv s.u * s.u) ^ 2 + (s.y2 - s.v.tdiv s.u * s.y1) ^ 2
    · rw [if_pos hcmp] at hok
      injection hok with hb
      subst hb
      refine ⟨⟨?_, ?_⟩, ?_⟩
      · show (s.x2 * Fr + s.y2 * lam + -s.y2 * lam) % Fr = 0
        have e : s.x2 * Fr + s.y2 * lam + -s.y2 * lam = s.x2 * Fr := by ring
        rw [e]
        exact Int.mul_emod_left _ _
      · show (s.u + -s.y1 * lam) % Fr = 0
        have e : s.u + -s.y1 * lam = s.x1 * Fr := by rw [h1]; ring
        rw [e]
        exact Int.mul_emod_left _ _
      · show (s.x2 * Fr + s.y2 * lam) * -s.y1 - s.u * -s.y2 = Fr ∨
          (s.x2 * Fr + s.y2 * lam) * -s.y1 - s.u * -s.y2 = -Fr
        have e : (s.x2 * Fr + s.y2 * lam) * -s.y1 - s.u * -s.y2 =
            (s.x1 * s.y2 - s.x2 * s.y1) * Fr := by rw [h1]; ring
        rcases hdet with hd | hd
        · left; rw [e, hd]; ring
        · right; rw [e, hd]; ring
    · rw [if_neg hcmp] at hok
      injection hok with hb
      subst hb
      refine ⟨⟨?_, ?_⟩, ?_⟩
      · show (s.u + -s.y1 * lam) % Fr = 0
        have e : s.u + -s.y1 * lam = s.x1 * Fr := by rw [h1]; ring
        rw [e]
        exact Int.mul_emod_left _ _
      · show (s.v - s.v.tdiv s.u * s.u + -(s.y2 - s.v.tdiv s.u * s.y1) * lam) % Fr = 0
        have e : s.v - s.v.tdiv s.u * s.u + -(s.y2 - s.v.tdiv s.u * s.y1) * lam =
            (s.x2 - s.v.tdiv s.u * s.x1) * Fr := by rw [h1, h2]; ring
        rw [e]
        exact Int.mul_emod_left _ _
      · show s.u * -(s.y2 - s.v.tdiv s.u * s.y1) - (s.v - s.v.tdiv s.u * s.u) * -s.y1 = Fr ∨
          s.u * -(s.y2 - s.v.tdiv s.u * s.y1) - (s.v - s.v.tdiv s.u * s.u) * -s.y1 = -Fr
        have e : s.u * -(s.y2 - s.v.tdiv s.u * s.y1) -
            (s.v - s.v.tdiv s.u * s.u) * -s.y1 =
            -((s.x1 * s.y2 - s.x2 * s.y1) * Fr) := by rw [h1, h2]; ring
        rcases hdet with hd | hd
        · right; rw [e, hd]; ring
        · left; rw [e, hd]; ring

/-- Any basis returned by the reduction loop from a state satisfying the
Bezout and unimodularity invariants lies in the target sublattice and has
determinant `±Fr`. -/
theorem basisLoop_ok_inv (Fr lam bound : Int) :
    ∀ (fuel : Nat) (s : EuclidState) (b : Basis),
      s.u = s.x1 * Fr + s.y1 * lam → s.v = s.x2 * Fr + s.y2 * lam →
      (s.x1 * s.y2 - s.x2 * s.y1 = 1 ∨ s.x1 * s.y2 - s.x2 * s.y1 = -1) →
      basisLoop Fr lam bound fuel s = .ok b →
      ((b.a1 + b.b1 * lam) % Fr = 0 ∧ (b.a2 + b.b2 * lam) % Fr = 0) ∧
        (b.a1 * b.b2 - b.a2 * b.b1 = Fr ∨ b.a1 * b.b2 - b.a2 * b.b1 = -Fr) := by
  intro fuel
  induction fuel with
  | zero => intro s b _ _ _ h; cases h
  | succ fuel ih =>
    intro s b h1 h2 hdet h
    have hdetstep : (euclidStep s).x1 * (euclidStep s).y2 -
        (euclidStep s).x2 * (euclidStep s).y1 = 1 ∨
        (euclidStep s).x1 * (euclidStep s).y2 -
        (euclidStep s).x2 * (euclidStep s).y1 = -1 := by
      have hdet' := euclidStep_det s
      rcases hdet with hd | hd
      · right; rw [hdet', hd]
      · left; rw [hdet', hd]; ring
    have hbez := euclidStep_bez Fr lam s h1 h2
    rw [basisLoop] at h
    by_cases hz : s.u = 0
    · rw [if_pos hz] at h
      cases h
    · rw [if_neg hz] at h
      by_cases hstop : (euclidStep s).u < bound
      · rw [if_pos hstop] at h
        exact tieBreak_ok Fr lam (euclidStep s) b hbez.1 hbez.2 hdetstep h
      · rw [if_neg hstop] at h
        exact ih (euclidStep s) b hbez.1 hbez.2 hdetstep h

/-- The invariant holds at the loop entry state. -/
theorem initState_bez (Fr lam : Int) :
    (initState Fr lam).u = (initState Fr lam).x1 * Fr + (initState Fr lam).y1 * lam ∧
      (initState Fr lam).v = (initState Fr lam).x2 * Fr + (initState Fr lam).y2 * lam ∧
      (initState Fr lam).x1 * (initState Fr lam).y2 -
        (initState Fr lam).x2 * (initState Fr lam).y1 = 1 := by
  refine ⟨?_, ?_, ?_⟩ <;> simp only [initState] <;> ring

/-- C7: the Bezout-coefficient invariant holds at every iteration of the
basis-reduction loop: after any number of iterations of the loop body from
the entry state `u = Fr, v = lambda, (x1,y1) = (1,0), (x2,y2) = (0,1)`,
the tracked coefficients satisfy `u = x1*Fr + y1*lambda` and
`v = x2*Fr + y2*lambda`; in particular each new remainder `r` (the new
`u`) satisfies `r = x*Fr + y*lambda` for its tracked pair `(x, y)` (the
new `(x1, y1)`). -/
theorem bezout_invariant_every_iteration (Fr lam : Int) (n : Nat) :
    (stepN n (initState Fr lam)).u =
        (stepN n (initState Fr lam)).x1 * Fr + (stepN n (initState Fr lam)).y1 * lam ∧
      (stepN n (initState Fr lam)).v =
        (stepN n (initState Fr lam)).x2 * Fr + (stepN n (initState Fr lam)).y2 * lam := by
  induction n with
  | zero =>
    have h := initState_bez Fr lam
    exact ⟨h.1, h.2.1⟩
  | succ n ih =>
    exact euclidStep_bez Fr lam _ ih.1 ih.2

/-- C3: for a valid input pair (`Fr` prime, `0 ≤ lambda < Fr`), any basis
produced by the construction lies in the target sublattice —
`a1 + b1*lambda ≡ 0 (mod Fr)` and `a2 + b2*lambda ≡ 0 (mod Fr)` — and
neither basis vector is the zero vector. -/
theorem build_basis_sublattice (Fr lam : Int) (b : Basis)
    (hp : Fr.natAbs.Prime) (h0 : 0 ≤ lam) (hlt : lam < Fr)
    (hb : build_basis Fr lam = .ok b) :
    (b.a1 + b.b1 * lam) % Fr = 0 ∧ (b.a2 + b.b2 * lam) % Fr = 0 ∧
      ¬(b.a1 = 0 ∧ b.b1 = 0) ∧ ¬(b.a2 = 0 ∧ b.b2 = 0) := by
  have hinit := initState_bez Fr lam
  have h := basisLoop_ok_inv Fr lam (isqrt Fr) (Fr.natAbs + 2) (initState Fr lam) b
    hinit.1 hinit.2.1 (Or.inl hinit.2.2) hb
  have hFr : 0 < Fr := lt_of_le_of_lt h0 hlt
  refine ⟨h.1.1, h.1.2, ?_, ?_⟩
  · rintro ⟨e1, e2⟩
    rcases h.2 with hd | hd <;> rw [e1, e2] at hd <;> simp at hd <;> omega
  · rintro ⟨e1, e2⟩
    rcases h.2 with hd | hd <;> rw [e1, e2] at hd <;> simp at hd <;> omega

/-! ### The rounding used by the decomposition -/

theorem roundAway_of_neg (n d : Int) (hn : n < 0) : roundAway n d = -roundAway (-n) d := by
  unfold roundAway
  rw [if_neg (not_le.mpr hn), if_pos (by omega : (0:Int) ≤ -n)]

theorem roundAway_nearest_nonneg (n d : Int) (hd : 0 < d) (hn : 0 ≤ n) :
    2 * |n - roundAway n d * d| ≤ d := by
  unfold roundAway
  rw [if_pos hn]
  set c := (2 * n + d) / (2 * d) with hc
  have heq := Int.ediv_add_emod (2 * n + d) (2 * d)
  have hge := Int.emod_nonneg (2 * n + d) (by omega : (2:Int) * d ≠ 0)
  have hlt := Int.emod_lt_of_pos (2 * n + d) (by omega : (0:Int) < 2 * d)
  rw [← hc] at heq
  have key : 2 * (n - c * d) = (2 * n + d) % (2 * d) - d := by linarith
  have habs : 2 * |n - c * d| = |2 * (n - c * d)| := by
    rw [abs_mul]
    norm_num
  rw [habs, key]
  rw [abs_le]
  constructor <;> linarith

theorem roundAway_tie_nonneg (n d : Int) (hd : 0 < d) (hn : 0 ≤ n)
    (htie : 2 * |n - roundAway n d * d| = d) : |n| < |roundAway n d * d| := by
  rw [show roundAway n d = (2 * n + d) / (2 * d) from by unfold roundAway; rw [if_pos hn]]
    at htie ⊢
  set c := (2 * n + d) / (2 * d) with hc
  have heq := Int.ediv_add_emod (2 * n + d) (2 * d)
  have hge := Int.emod_nonneg (2 * n + d) (by omega : (2:Int) * d ≠ 0)
  have hlt := Int.emod_lt_of_pos (2 * n + d) (by omega : (0:Int) < 2 * d)
  rw [← hc] at heq
  have key : 2 * (n - c * d) = (2 * n + d) % (2 * d) - d := by linarith
  have habs : 2 * |n - c * d| = |2 * (n - c * d)| := by
    rw [abs_mul]
    norm_num
  rw [habs, key] at htie
  rcases (abs_eq (le_of_lt hd)).mp htie with he | he
  · linarith
  · have hcd : 0 < c * d := by linarith
    rw [abs_of_nonneg hn, abs_of_pos hcd]
    linarith

/-- The computed coefficient is a nearest integer to the exact rational
`n / d`: the distance `|n/d - c|` is at most `1/2`, in exact integer form. -/
theorem roundAway_nearest (n d : Int) (hd : 0 < d) :
    2 * |n - roundAway n d * d| ≤ d := by
  rcases le_or_lt 0 n with hn | hn
  · exact roundAway_nearest_nonneg n d hd hn
  · rw [roundAway_of_neg n d hn]
    have h := roundAway_nearest_nonneg (-n) d hd (by omega)
    have e : n - -roundAway (-n) d * d = -(-n - roundAway (-n) d * d) := by ring
    rw [e, abs_neg]
    exact h

/-- On a tie (`|n/d - c| = 1/2` exactly) the computed coefficient rounds
away from zero: the chosen multiple of `d` is larger in absolute value
than `n`. -/
theorem roundAway_tie_away (n d : Int) (hd : 0 < d)
    (htie : 2 * |n - roundAway n d * d| = d) : |n| < |roundAway n d * d| := by
  rcases le_or_lt 0 n with hn | hn
  · exact roundAway_tie_nonneg n d hd hn htie
  · rw [roundAway_of_neg n d hn] at htie ⊢
    have e : n - -roundAway (-n) d * d = -(-n - roundAway (-n) d * d) := by ring
    rw [e, abs_neg] at htie
    have h := roundAway_tie_nonneg (-n) d hd (by omega) htie
    have e2 : -roundAway (-n) d * d = -(roundAway (-n) d * d) := by ring
    rw [e2, abs_neg, ← abs_neg n]
    exact h

/-! ### The reconstruction congruence of the decomposition -/

/-- Before the sign normalization, `k1 + k2*lambda ≡ k (mod Fr)` follows
from the sublattice property of the basis alone. -/
theorem raw_congruence (Fr lam k : Int) (b : Basis)
    (hsub1 : (b.a1 + b.b1 * lam) % Fr = 0) (hsub2 : (b.a2 + b.b2 * lam) % Fr = 0) :
    (k1Raw Fr b k + k2Raw Fr b k * lam - k) % Fr = 0 := by
  have d1 := Int.dvd_of_emod_eq_zero hsub1
  have d2 := Int.dvd_of_emod_eq_zero hsub2
  have e : k1Raw Fr b k + k2Raw Fr b k * lam - k =
      -(c1Of Fr b k) * (b.a1 + b.b1 * lam) + -(c2Of Fr b k) * (b.a2 + b.b2 * lam) := by
    unfold k1Raw k2Raw
    ring
  rw [e]
  exact Int.emod_eq_zero_of_dvd
    (dvd_add (Dvd.dvd.mul_left d1 _) (Dvd.dvd.mul_left d2 _))

/-- C1: for every `k`, the pair returned by
`get_endomorphism_scalar_decomposition` satisfies the reconstruction
identity `k1 + k2*lambda ≡ k (mod Fr)` with the sign convention of the
conditional replacement `x ← Fr - x`: a component that was replaced
enters the congruence with sign `-1` (since `Fr - x ≡ -x (mod Fr)`), an
untouched component with sign `+1`. -/
theorem decompose_reconstruction (Fr lam k : Int) (b : Basis) (k1 k2 : Int)
    (hk0 : 0 ≤ k) (hk : k < Fr)
    (hb : build_basis Fr lam = .ok b)
    (hres : get_endomorphism_scalar_decomposition Fr b k = some (k1, k2)) :
    ((if limitOf b < nbits (k1Raw Fr b k) then -1 else 1) * k1 +
      (if limitOf b < nbits (k2Raw Fr b k) then -1 else 1) * k2 * lam - k) % Fr = 0 := by
  have hinit := initState_bez Fr lam
  unfold build_basis at hb
  have hinv := basisLoop_ok_inv Fr lam (isqrt Fr) (Fr.natAbs + 2) (initState Fr lam) b
    hinit.1 hinit.2.1 (Or.inl hinit.2.2) hb
  have hraw := raw_congruence Fr lam k b hinv.1.1 hinv.1.2
  simp only [get_endomorphism_scalar_decomposition] at hres
  by_cases hcond : nbits (flipIfWide Fr (limitOf b) (k1Raw Fr b k)) ≤ limitOf b ∧
      nbits (flipIfWide Fr (limitOf b) (k2Raw Fr b k)) ≤ limitOf b
  · rw [if_pos hcond] at hres
    injection hres with hres
    injection hres with e1 e2
    subst e1
    subst e2
    by_cases hf1 : limitOf b < nbits (k1Raw Fr b k) <;>
      by_cases hf2 : limitOf b < nbits (k2Raw Fr b k)
    · rw [if_pos hf1, if_pos hf2]
      simp only [flipIfWide, if_pos hf1, if_pos hf2]
      have e : -1 * (Fr - k1Raw Fr b k) + -1 * (Fr - k2Raw Fr b k) * lam - k =
          k1Raw Fr b k + k2Raw Fr b k * lam - k + Fr * (-1 + -lam) := by ring
      rw [e, Int.add_mul_emod_self_left]
      exact hraw
    · rw [if_pos hf1, if_neg hf2]
      simp only [flipIfWide, if_pos hf1, if_neg hf2]
      have e : -1 * (Fr - k1Raw Fr b k) + 1 * k2Raw Fr b k * lam - k =
          k1Raw Fr b k + k2Raw Fr b k * lam - k + Fr * (-1) := by ring
      rw [e, Int.add_mul_emod_self_left]
      exact hraw
    · rw [if_neg hf1, if_pos hf2]
      simp only [flipIfWide, if_neg hf1, if_pos hf2]
      have e : 1 * k1Raw Fr b k + -1 * (Fr - k2Raw Fr b k) * lam - k =
          k1Raw Fr b k + k2Raw Fr b k * lam - k + Fr * (-lam) := by ring
      rw [e, Int.add_mul_emod_self_left]
      exact hraw
    · rw [if_neg hf1, if_neg hf2]
      simp only [flipIfWide, if_neg hf1, if_neg hf2]
      have e : 1 * k1Raw Fr b k + 1 * k2Raw Fr b k * lam - k =
          k1Raw Fr b k + k2Raw Fr b k * lam - k + Fr * 0 := by ring
      rw [e, Int.add_mul_emod_self_left]
      exact hraw
  · rw [if_neg hcond] at hres
    cases hres

/-! ### The bit-length bound of the decomposition -/

/-- Combination bound: if `F*T = X*e1 + Y*e2` with both `|e_i| ≤ F/2`,
then `|T| ≤ (|X| + |Y|)/2` (in exact integer form). -/
theorem two_mul_abs_le_comb (F X Y e1 e2 T : Int) (hF : 0 < F)
    (h1 : 2 * |e1| ≤ F) (h2 : 2 * |e2| ≤ F) (hT : F * T = X * e1 + Y * e2) :
    2 * |T| ≤ |X| + |Y| := by
  have habs : |F * T| ≤ |X| * |e1| + |Y| * |e2| := by
    rw [hT]
    calc |X * e1 + Y * e2| ≤ |X * e1| + |Y * e2| := abs_add _ _
      _ = |X| * |e1| + |Y| * |e2| := by rw [abs_mul, abs_mul]
  have h3 : F * (2 * |T|) = 2 * |F * T| := by rw [abs_mul, abs_of_pos hF]; ring
  have h4 : |X| * (2 * |e1|) ≤ |X| * F := mul_le_mul_of_nonneg_left h1 (abs_nonneg X)
  have h5 : |Y| * (2 * |e2|) ≤ |Y| * F := mul_le_mul_of_nonneg_left h2 (abs_nonneg Y)
  have h6 : F * (2 * |T|) ≤ F * (|X| + |Y|) := by nlinarith
  exact le_of_mul_le_mul_left h6 hF

/-- C2 (amended): when the produced basis has determinant
`a1*b2 - a2*b1 = +Fr`, the decomposition of any in-range scalar satisfies
both bit-length assertions, and indeed neither conditional replacement
fires: the raw pair is returned unchanged. -/
theorem decompose_bound_det_pos (Fr lam k : Int) (b : Basis)
    (hb : build_basis Fr lam = .ok b)
    (hdet : b.a1 * b.b2 - b.a2 * b.b1 = Fr)
    (hk0 : 0 ≤ k) (hk : k < Fr) :
    get_endomorphism_scalar_decomposition Fr b k =
      some (k1Raw Fr b k, k2Raw Fr b k) := by
  have hFr : 0 < Fr := lt_of_le_of_lt hk0 hk
  have h1 : 2 * |b.b2 * k - c1Of Fr b k * Fr| ≤ Fr := roundAway_nearest _ _ hFr
  have h2 : 2 * |-b.b1 * k - c2Of Fr b k * Fr| ≤ Fr := roundAway_nearest _ _ hFr
  have hK1 : Fr * k1Raw Fr b k =
      b.a1 * (b.b2 * k - c1Of Fr b k * Fr) + b.a2 * (-b.b1 * k - c2Of Fr b k * Fr) := by
    simp only [k1Raw]
    linear_combination (-k) * hdet
  have hK2 : Fr * k2Raw Fr b k =
      b.b1 * (b.b2 * k - c1Of Fr b k * Fr) + b.b2 * (-b.b1 * k - c2Of Fr b k * Fr) := by
    simp only [k2Raw]
    ring
  have hB1 : 2 * |k1Raw Fr b k| ≤ |b.a1| + |b.a2| :=
    two_mul_abs_le_comb Fr b.a1 b.a2 _ _ _ hFr h1 h2 hK1
  have hB2 : 2 * |k2Raw Fr b k| ≤ |b.b1| + |b.b2| :=
    two_mul_abs_le_comb Fr b.b1 b.b2 _ _ _ hFr h1 h2 hK2
  have hva : v1NormSq b ≤ maxNormSq b := le_max_left _ _
  have hvb : v2NormSq b ≤ maxNormSq b := le_max_right _ _
  unfold v1NormSq at hva
  unfold v2NormSq at hvb
  set M := maxNormSq b with hMdef
  set L := limitOf b with hLdef
  have hM1 : 1 ≤ M := by
    by_contra hc
    push_neg at hc
    have ha1 : b.a1 = 0 := by
      have h0 : b.a1 ^ 2 = 0 :=
        le_antisymm (by nlinarith [sq_nonneg b.b1]) (sq_nonneg _)
      exact sq_eq_zero_iff.mp h0
    have hb1 : b.b1 = 0 := by
      have h0 : b.b1 ^ 2 = 0 :=
        le_antisymm (by nlinarith [sq_nonneg b.a1]) (sq_nonneg _)
      exact sq_eq_zero_iff.mp h0
    rw [ha1, hb1] at hdet
    have : (0:Int) = Fr := by linarith [hdet, mul_zero b.a2, zero_mul b.b2]
    omega
  have hL1 : 1 ≤ L := by
    rw [hLdef]
    unfold limitOf
    have : 1 ≤ nbits (maxNormSq b) := by unfold nbits; omega
    omega
  have hMlt : M < 2 ^ (2 * L) := by
    have hnat : M.natAbs < 2 ^ (2 * L) := by
      refine lt_of_lt_of_le (lt_two_pow_nbits M) (Nat.pow_le_pow_right (by norm_num) ?_)
      rw [hLdef, hMdef]
      unfold limitOf
      omega
    have hcast : (M : Int) = (M.natAbs : Int) :=
      (Int.natAbs_of_nonneg (by linarith)).symm
    rw [hcast]
    exact_mod_cast hnat
  have hppos : (0:Int) < 2 ^ L := by positivity
  have hpow2 : (2:Int) ^ (2 * L) = 2 ^ L * 2 ^ L := by rw [two_mul, pow_add]
  have habs_bound : ∀ X Y : Int, X ^ 2 ≤ M → Y ^ 2 ≤ M → |X| + |Y| < 2 * 2 ^ L := by
    intro X Y hX hY
    have hsum_sq : (|X| + |Y|) ^ 2 ≤ 4 * M := by
      nlinarith [sq_nonneg (|X| - |Y|), sq_abs X, sq_abs Y]
    have h4 : (|X| + |Y|) ^ 2 < (2 * 2 ^ L) ^ 2 := by
      have e4 : (2 * (2:Int) ^ L) ^ 2 = 4 * (2 ^ L * 2 ^ L) := by ring
      rw [e4, ← hpow2]
      linarith
    exact lt_of_pow_lt_pow_left₀ 2 (by positivity) h4
  have hs1 : |b.a1| + |b.a2| < 2 * 2 ^ L := by
    refine habs_bound _ _ ?_ ?_
    · linarith [sq_nonneg b.b1]
    · linarith [sq_nonneg b.b2]
  have hs2 : |b.b1| + |b.b2| < 2 * 2 ^ L := by
    refine habs_bound _ _ ?_ ?_
    · linarith [sq_nonneg b.a1]
    · linarith [sq_nonneg b.a2]
  have hk1_lt : |k1Raw Fr b k| < 2 ^ L := by linarith
  have hk2_lt : |k2Raw Fr b k| < 2 ^ L := by linarith
  have hn1 : nbits (k1Raw Fr b k) ≤ L := by
    rw [nbits_le _ _ hL1]
    rw [Int.abs_eq_natAbs] at hk1_lt
    exact_mod_cast hk1_lt
  have hn2 : nbits (k2Raw Fr b k) ≤ L := by
    rw [nbits_le _ _ hL1]
    rw [Int.abs_eq_natAbs] at hk2_lt
    exact_mod_cast hk2_lt
  simp only [get_endomorphism_scalar_decomposition, flipIfWide, ← hLdef,
    if_neg (not_lt.mpr hn1), if_neg (not_lt.mpr hn2)]
  rw [if_pos ⟨hn1, hn2⟩]

/-- C6: the coefficients `c1 = round(b2*k/Fr)` and `c2 = round(-b1*k/Fr)`
used by the decomposition are computed from the exact integer data by
round-to-nearest: the chosen multiple `c*Fr` is within `Fr/2` of the
numerator, and on an exact tie the multiple larger in absolute value is
chosen (ties away from zero).  Being a function of `(Fr, b, k)`, the
rounding is deterministic. -/
theorem rounding_coefficients_nearest (Fr : Int) (b : Basis) (k : Int) (hFr : 0 < Fr) :
    (2 * |b.b2 * k - c1Of Fr b k * Fr| ≤ Fr ∧
      (2 * |b.b2 * k - c1Of Fr b k * Fr| = Fr → |b.b2 * k| < |c1Of Fr b k * Fr|)) ∧
    (2 * |-b.b1 * k - c2Of Fr b k * Fr| ≤ Fr ∧
      (2 * |-b.b1 * k - c2Of Fr b k * Fr| = Fr → |-b.b1 * k| < |c2Of Fr b k * Fr|)) :=
  ⟨⟨roundAway_nearest _ _ hFr, roundAway_tie_away _ _ hFr⟩,
   ⟨roundAway_nearest _ _ hFr, roundAway_tie_away _ _ hFr⟩⟩

/-! ### The limit formula -/

/-- C4 (amended): the computed `limit` equals
`ceil((⌊log2(max_norm_squared)⌋ + 1) / 2)` — the spec formula with the
inner ceiling replaced by a floor. -/
theorem limit_formula_amended (b : Basis) (h : 1 ≤ maxNormSq b) :
    limitOf b = amendedLimitFormula (maxNormSq b).toNat := by
  unfold limitOf amendedLimitFormula floorLog2 nbits
  have h1 : (maxNormSq b).natAbs = (maxNormSq b).toNat := by omega
  rw [h1]
  have h2 : 1 ≤ bitlen (maxNormSq b).toNat := one_le_bitlen _ (by omega)
  omega

/-! ### The candidate-selection structure of the loop -/

theorem tieBreak_eq_specSelect (Fr lam : Int) (s : EuclidState) (b : Basis) :
    tieBreak Fr lam s = .ok b ↔ specSelect Fr lam s = some b := by
  simp only [tieBreak, specSelect]
  split_ifs <;> simp

theorem basisLoop_first_stop (Fr lam bound : Int) :
    ∀ (fuel j : Nat) (b : Basis),
      basisLoop Fr lam bound fuel (stepN j (initState Fr lam)) = .ok b →
      (∀ m, 1 ≤ m → m ≤ j → ¬ (stepN m (initState Fr lam)).u < bound) →
      ∃ n, j < n ∧ (∀ m, 1 ≤ m → m < n → ¬ (stepN m (initState Fr lam)).u < bound) ∧
        (stepN n (initState Fr lam)).u < bound ∧
        specSelect Fr lam (stepN n (initState Fr lam)) = some b := by
  intro fuel
  induction fuel with
  | zero =>
    intro j b h _
    rw [basisLoop] at h
    cases h
  | succ fuel ih =>
    intro j b h hprev
    rw [basisLoop] at h
    by_cases hz : (stepN j (initState Fr lam)).u = 0
    · rw [if_pos hz] at h
      cases h
    · rw [if_neg hz] at h
      have hstep : euclidStep (stepN j (initState Fr lam)) = stepN (j + 1) (initState Fr lam) :=
        rfl
      rw [hstep] at h
      by_cases hstop : (stepN (j + 1) (initState Fr lam)).u < bound
      · rw [if_pos hstop] at h
        refine ⟨j + 1, by omega, ?_, hstop, (tieBreak_eq_specSelect Fr lam _ b).mp h⟩
        intro m hm1 hm2
        exact hprev m hm1 (by omega)
      · rw [if_neg hstop] at h
        have hprev' : ∀ m, 1 ≤ m → m ≤ j + 1 →
            ¬ (stepN m (initState Fr lam)).u < bound := by
          intro m hm1 hm2
          rcases Nat.lt_or_ge m (j + 1) with hc | hc
          · exact hprev m hm1 (by omega)
          · have hmj : m = j + 1 := by omega
            rw [hmj]
            exact hstop
        obtain ⟨n, hn, hmin, hstopn, hsel⟩ := ih (j + 1) b h hprev'
        exact ⟨n, by omega, hmin, hstopn, hsel⟩

/-- C5: basis construction follows the candidate-selection algorithm of
section 4.1 of the spec: the recurrence stops at the first iteration `n`
whose remainder (the running `u`) is strictly below `bound = ⌊√Fr⌋`, and
the returned basis is exactly the one described by steps 3-5 of the spec
(first candidate `(r, -y1)`, alternate pre-stop candidate
`(x2*Fr + y2*lambda, -y2)`, one further Euclidean step giving
`(r_l2, -y_l2)`, and the squared-norm tie-break) applied at that first
stopping state. -/
theorem build_basis_candidate_selection (Fr lam : Int) (b : Basis)
    (hb : build_basis Fr lam = .ok b) :
    ∃ n, 1 ≤ n ∧
      (∀ m, 1 ≤ m → m < n → ¬ (stepN m (initState Fr lam)).u < isqrt Fr) ∧
      (stepN n (initState Fr lam)).u < isqrt Fr ∧
      specSelect Fr lam (stepN n (initState Fr lam)) = some b := by
  unfold build_basis at hb
  obtain ⟨n, hn, hmin, hstop, hsel⟩ :=
    basisLoop_first_stop Fr lam (isqrt Fr) (Fr.natAbs + 2) 0 b hb (by omega)
  exact ⟨n, by omega, hmin, hstop, hsel⟩

/-! ### Termination of the loop -/

theorem tieBreak_ne_outOfFuel (Fr lam : Int) (s : EuclidState) :
    tieBreak Fr lam s ≠ .outOfFuel := by
  simp only [tieBreak]
  split_ifs <;> simp

/-- Bounded termination: from a state with `0 ≤ u < 2^n` and `0 ≤ v`, the
loop consumes at most `2*n + 1` iterations, because the running remainder
at least halves every two iterations. -/
theorem basisLoop_halt (Fr lam bound : Int) (hbound : 1 ≤ bound) :
    ∀ (n : Nat) (s : EuclidState), 0 ≤ s.u → 0 ≤ s.v → s.u < 2 ^ n →
      basisLoop Fr lam bound (2 * n + 1) s ≠ .outOfFuel := by
  intro n
  induction n with
  | zero =>
    intro s hu hv hlt
    have h1 : (2:Int) ^ 0 = 1 := pow_zero 2
    have hz : s.u = 0 := by omega
    rw [show 2 * 0 + 1 = 0 + 1 from rfl, basisLoop, if_pos hz]
    simp
  | succ n ih =>
    intro s hu hv hlt
    have e : 2 * (n + 1) + 1 = (2 * n + 1) + 1 + 1 := by omega
    rw [e, basisLoop]
    by_cases hz : s.u = 0
    · rw [if_pos hz]; simp
    · rw [if_neg hz]
      have hupos : 0 < s.u := by omega
      have hrem := euclidStep_remainder s hupos hv
      have hr0 : 0 ≤ (euclidStep s).u := by
        rw [hrem.1]; exact Int.emod_nonneg _ (by omega)
      have hrlt : (euclidStep s).u < s.u := by
        rw [hrem.1]; exact Int.emod_lt_of_pos _ hupos
      by_cases hstop : (euclidStep s).u < bound
      · rw [if_pos hstop]; exact tieBreak_ne_outOfFuel Fr lam _
      · rw [if_neg hstop, basisLoop]
        have hz1 : ¬ (euclidStep s).u = 0 := by omega
        rw [if_neg hz1]
        have hupos1 : 0 < (euclidStep s).u := by omega
        have hv1 : 0 ≤ (euclidStep s).v := by rw [hrem.2]; omega
        have hrem2 := euclidStep_remainder (euclidStep s) hupos1 hv1
        by_cases hstop2 : (euclidStep (euclidStep s)).u < bound
        · rw [if_pos hstop2]; exact tieBreak_ne_outOfFuel Fr lam _
        · rw [if_neg hstop2]
          refine ih (euclidStep (euclidStep s)) ?_ ?_ ?_
          · rw [hrem2.1]; exact Int.emod_nonneg _ (by omega)
          · rw [hrem2.2]; omega
          · have h2u : (euclidStep (euclidStep s)).u = s.u % (euclidStep s).u := by
              rw [hrem2.1, hrem.2]
            have hr2lt : (euclidStep (euclidStep s)).u < (euclidStep s).u := by
              rw [hrem2.1]; exact Int.emod_lt_of_pos _ hupos1
            have hpow : (2:Int) ^ (n + 1) = 2 * 2 ^ n := by rw [pow_succ]; ring
            rcases le_or_lt (2 * (euclidStep s).u) s.u with hcase | hcase
            · rw [hpow] at hlt
              linarith
            · have hmod : s.u % (euclidStep s).u = s.u - (euclidStep s).u := by
                have hb1 : 0 ≤ s.u - (euclidStep s).u := by omega
                have hb2 : s.u - (euclidStep s).u < (euclidStep s).u := by omega
                have hself := Int.add_mul_emod_self_left s.u (euclidStep s).u (-1)
                have he : s.u + (euclidStep s).u * -1 = s.u - (euclidStep s).u := by ring
                rw [he] at hself
                rw [← hself]
                exact Int.emod_eq_of_lt hb1 hb2
              rw [h2u, hmod]
              rw [hpow] at hlt
              linarith

/-- C9: for a prime `Fr` and `0 ≤ lambda < Fr` the basis-reduction loop
terminates within `O(log Fr)` iterations: `2 * bitlen(Fr) + 2` iterations
of fuel are never exhausted, because the remainder strictly decreases and
at least halves every two iterations until the stop condition fires. -/
theorem basis_construction_terminates (Fr lam : Int)
    (hp : Fr.natAbs.Prime) (h0 : 0 ≤ lam) (hlt : lam < Fr) :
    basisLoop Fr lam (isqrt Fr) (2 * bitlen Fr.natAbs + 2) (initState Fr lam) ≠
      .outOfFuel := by
  have hFr : 0 < Fr := lt_of_le_of_lt h0 hlt
  have hbound : 1 ≤ isqrt Fr := one_le_isqrt Fr (by omega)
  rw [show 2 * bitlen Fr.natAbs + 2 = (2 * bitlen Fr.natAbs + 1) + 1 from by omega,
    basisLoop]
  have hz : ¬ (initState Fr lam).u = 0 := by
    show ¬ Fr = 0
    omega
  rw [if_neg hz]
  have hupos : 0 < (initState Fr lam).u := hFr
  have hv0 : 0 ≤ (initState Fr lam).v := h0
  have hrem := euclidStep_remainder (initState Fr lam) hupos hv0
  by_cases hstop : (euclidStep (initState Fr lam)).u < isqrt Fr
  · rw [if_pos hstop]; exact tieBreak_ne_outOfFuel Fr lam _
  · rw [if_neg hstop]
    refine basisLoop_halt Fr lam (isqrt Fr) hbound (bitlen Fr.natAbs)
      (euclidStep (initState Fr lam)) ?_ ?_ ?_
    · rw [hrem.1]; exact Int.emod_nonneg _ (by omega)
    · rw [hrem.2]; exact le_of_lt hFr
    · rw [hrem.1]
      have hmod : (initState Fr lam).v % (initState Fr lam).u = lam :=
        Int.emod_eq_of_lt h0 hlt
      rw [hmod]
      calc lam < Fr := hlt
        _ = (Fr.natAbs : Int) := by omega
        _ < ((2 ^ bitlen Fr.natAbs : Nat) : Int) := by
            exact_mod_cast lt_two_pow_bitlen Fr.natAbs
        _ = (2:Int) ^ bitlen Fr.natAbs := by push_cast; ring

/-! ### Counterexamples and concrete instances -/

/-- C2 (counterexample): for the prime `Fr = 7` with the genuine
endomorphism eigenvalue `lambda = 4` (`4^2 + 4 + 1 ≡ 0 (mod 7)`), the
loop produces the basis `(3, 1), (1, -2)` (of determinant `-7`), and the
decomposition of the in-range scalar `k = 6` fails the final assertions:
both conditional replacements fire or leave a value whose bit length
exceeds `limit = 2`, so `get_endomorphism_scalar_decomposition` raises
`AssertionError` (modelled as `none`). -/
theorem decompose_bound_counterexample :
    Nat.Prime ((7:Int).natAbs) ∧ ((4:Int) ^ 2 + 4 + 1) % 7 = 0 ∧
      (0:Int) ≤ 4 ∧ (4:Int) < 7 ∧
      build_basis 7 4 = .ok ⟨3, 1, 1, -2⟩ ∧
      (0:Int) ≤ 6 ∧ (6:Int) < 7 ∧
      get_endomorphism_scalar_decomposition 7 ⟨3, 1, 1, -2⟩ 6 = none := by
  decide

/-- C4 (counterexample): for the prime `Fr = 31` with eigenvalue
`lambda = 5` (`5^2 + 5 + 1 ≡ 0 (mod 31)`), the produced basis has maximal
squared norm `37`; the code computes `limit = 3` while the spec formula
`ceil((⌈log2 37⌉ + 1) / 2) = ceil(7/2)` gives `4`. -/
theorem limit_formula_counterexample :
    Nat.Prime ((31:Int).natAbs) ∧ ((5:Int) ^ 2 + 5 + 1) % 31 = 0 ∧
      build_basis 31 5 = .ok ⟨5, -1, 1, 6⟩ ∧
      maxNormSq ⟨5, -1, 1, 6⟩ = 37 ∧
      limitOf ⟨5, -1, 1, 6⟩ = 3 ∧
      specLimitFormula 37 = 4 ∧
      limitOf ⟨5, -1, 1, 6⟩ ≠ specLimitFormula (maxNormSq ⟨5, -1, 1, 6⟩).toNat := by
  decide

/-- C8 (counterexample): the code performs no input validation: for the
malformed input `Fr = 10` (not prime) with `lambda = 3` the construction
does not fail — it produces a lattice basis. -/
theorem no_validation_counterexample :
    ¬ Nat.Prime ((10:Int).natAbs) ∧ build_basis 10 3 = .ok ⟨3, -1, 1, 3⟩ := by
  decide

/-- C8 (amended): there is no validation of `(Fr, lambda)` and no
`InvalidCurveParameters` failure path: for a non-prime `Fr` as well as for
`lambda` outside `[0, Fr)` the loop still runs and returns a basis. -/
theorem no_validation_amended :
    (¬ Nat.Prime ((10:Int).natAbs) ∧ build_basis 10 3 = .ok ⟨3, -1, 1, 3⟩) ∧
      (¬ ((17:Int) < 13) ∧ build_basis 13 17 = .ok ⟨4, -1, 1, 3⟩) := by
  decide

/-- C10: the decomposition can return negative components: on the toy
curve `Fr = 13`, `lambda = 3` (an eigenvalue: `3^2 + 3 + 1 = 13`), the
scalar `k = 12` yields raw `k1 = -1`; its absolute value fits in `limit`
bits, so the conditional replacement does not fire and the negative value
is returned unchanged. -/
theorem decompose_negative_component :
    build_basis 13 3 = .ok ⟨3, -1, 1, 4⟩ ∧
      k1Raw 13 ⟨3, -1, 1, 4⟩ 12 = -1 ∧
      ¬ limitOf ⟨3, -1, 1, 4⟩ < nbits (-1 : Int) ∧
      get_endomorphism_scalar_decomposition 13 ⟨3, -1, 1, 4⟩ 12 = some (-1, 0) ∧
      (-1 : Int) < 0 ∧
      nbits (-1 : Int) ≤ limitOf ⟨3, -1, 1, 4⟩ := by
  decide

/-! ### Witnesses -/

theorem build_basis_sublattice_witness :
    Nat.Prime ((13:Int).natAbs) ∧ (0:Int) ≤ 3 ∧ (3:Int) < 13 ∧
      build_basis 13 3 = .ok ⟨3, -1, 1, 4⟩ ∧
      (((3:Int) + -1 * 3) % 13 = 0 ∧ ((1:Int) + 4 * 3) % 13 = 0 ∧
        ¬((3:Int) = 0 ∧ (-1:Int) = 0) ∧ ¬((1:Int) = 0 ∧ (4:Int) = 0)) :=
  ⟨by decide, by decide, by decide, by decide,
    build_basis_sublattice 13 3 ⟨3, -1, 1, 4⟩ (by decide) (by decide) (by decide) (by decide)⟩

theorem decompose_reconstruction_witness :
    get_endomorphism_scalar_decomposition 13 ⟨3, -1, 1, 4⟩ 12 = some (-1, 0) ∧
      ((if limitOf ⟨3, -1, 1, 4⟩ < nbits (k1Raw 13 ⟨3, -1, 1, 4⟩ 12) then -1 else 1) * (-1) +
        (if limitOf ⟨3, -1, 1, 4⟩ < nbits (k2Raw 13 ⟨3, -1, 1, 4⟩ 12) then -1 else 1) * 0 * 3 -
        12) % 13 = 0 :=
  ⟨by decide, decompose_reconstruction 13 3 12 ⟨3, -1, 1, 4⟩ (-1) 0
    (by decide) (by decide) (by decide) (by decide)⟩

theorem decompose_bound_det_pos_witness :
    build_basis 13 3 = .ok ⟨3, -1, 1, 4⟩ ∧ (3:Int) * 4 - 1 * (-1) = 13 ∧
      get_endomorphism_scalar_decomposition 13 ⟨3, -1, 1, 4⟩ 12 =
        some (k1Raw 13 ⟨3, -1, 1, 4⟩ 12, k2Raw 13 ⟨3, -1, 1, 4⟩ 12) :=
  ⟨by decide, by decide, decompose_bound_det_pos 13 3 12 ⟨3, -1, 1, 4⟩
    (by decide) (by decide) (by decide) (by decide)⟩

theorem limit_formula_amended_witness :
    (1:Int) ≤ maxNormSq ⟨3, -1, 1, 4⟩ ∧
      limitOf ⟨3, -1, 1, 4⟩ = amendedLimitFormula (maxNormSq ⟨3, -1, 1, 4⟩).toNat :=
  ⟨by decide, limit_formula_amended ⟨3, -1, 1, 4⟩ (by decide)⟩

theorem build_basis_candidate_selection_witness :
    build_basis 13 3 = .ok ⟨3, -1, 1, 4⟩ ∧
      ∃ n, 1 ≤ n ∧
        (∀ m, 1 ≤ m → m < n → ¬ (stepN m (initState 13 3)).u < isqrt 13) ∧
        (stepN n (initState 13 3)).u < isqrt 13 ∧
        specSelect 13 3 (stepN n (initState 13 3)) = some ⟨3, -1, 1, 4⟩ :=
  ⟨by decide, build_basis_candidate_selection 13 3 ⟨3, -1, 1, 4⟩ (by decide)⟩

theorem rounding_coefficients_nearest_witness :
    (0:Int) < 13 ∧
      ((2 * |(4:Int) * 12 - c1Of 13 ⟨3, -1, 1, 4⟩ 12 * 13| ≤ 13 ∧
          (2 * |(4:Int) * 12 - c1Of 13 ⟨3, -1, 1, 4⟩ 12 * 13| = 13 →
            |(4:Int) * 12| < |c1Of 13 ⟨3, -1, 1, 4⟩ 12 * 13|)) ∧
        (2 * |(-(-1:Int)) * 12 - c2Of 13 ⟨3, -1, 1, 4⟩ 12 * 13| ≤ 13 ∧
          (2 * |(-(-1:Int)) * 12 - c2Of 13 ⟨3, -1, 1, 4⟩ 12 * 13| = 13 →
            |(-(-1:Int)) * 12| < |c2Of 13 ⟨3, -1, 1, 4⟩ 12 * 13|))) :=
  ⟨by decide, rounding_coefficients_nearest 13 ⟨3, -1, 1, 4⟩ 12 (by decide)⟩

theorem basis_construction_terminates_witness :
    Nat.Prime ((13:Int).natAbs) ∧ (0:Int) ≤ 3 ∧ (3:Int) < 13 ∧
      basisLoop 13 3 (isqrt 13) (2 * bitlen (13:Int).natAbs + 2) (initState 13 3) ≠
        BasisResult.outOfFuel :=
  ⟨by decide, by decide, by decide,
    basis_construction_terminates 13 3 (by decide) (by decide) (by decide)⟩

end GlvScript
